import Mathlib

/-!
Shallow embedding of the inter-service property/task coordination layer of
the fieldedge-utilities repository, together with theorems settling the
specification claims about it.

Python strings are modelled as Lean `String`/`List Char` restricted to the
ASCII fragment the property-name conventions use; Python `time.time()`
instants are modelled as integers (seconds) passed explicitly; Python
exceptions are modelled with `Except PyErr`.
-/

/-- Python exception outcomes raised by the embedded functions. -/
inductive PyErr where
  | valueError (msg : String)
  | keyError (key : String)
  | indexError
  | typeError
  | osError (msg : String)
  | nameError
  deriving Repr, DecidableEq

/-- ASCII lowercase letter test, mirroring the `[a-z]` ranges the Python code
relies on for its property-name conventions. -/
def isLowerAlpha (c : Char) : Bool := decide (97 ≤ c.toNat ∧ c.toNat ≤ 122)

/-- ASCII uppercase letter test, mirroring the regex class `[A-Z]` used by
`camel_to_snake`. -/
def isUpperAlpha (c : Char) : Bool := decide (65 ≤ c.toNat ∧ c.toNat ≤ 90)

/-- ASCII digit test. -/
def isDigitChar (c : Char) : Bool := decide (48 ≤ c.toNat ∧ c.toNat ≤ 57)

/-- ASCII letter (cased character) test, used to model which characters
Python `str.title` treats as word constituents. -/
def isAlphaChar (c : Char) : Bool := isLowerAlpha c || isUpperAlpha c

/-- Model of Python `str.lower` on a single ASCII character. -/
def pyToLower (c : Char) : Char :=
  if isUpperAlpha c then Char.ofNat (c.toNat + 32) else c

/-- Model of Python `str.upper` on a single ASCII character. -/
def pyToUpper (c : Char) : Char :=
  if isLowerAlpha c then Char.ofNat (c.toNat - 32) else c

/-- Model of Python `str.lower` over a character list. -/
def pyLower (cs : List Char) : List Char := cs.map pyToLower

/-- Model of Python `str.isupper`: at least one cased character and no
lowercase cased character. -/
def pyIsUpper (cs : List Char) : Bool :=
  cs.any isAlphaChar && cs.all (fun c => !isLowerAlpha c)

/-- Model of Python `str.title` character stepping: a cased character is
uppercased when the previous character is not cased, lowercased otherwise.
The boolean argument records whether the previous character was cased. -/
def pyTitleAux : Bool → List Char → List Char
  | _, [] => []
  | prevAlpha, c :: rest =>
      (if isAlphaChar c then (if prevAlpha then pyToLower c else pyToUpper c) else c)
        :: pyTitleAux (isAlphaChar c) rest

/-- Model of Python `str.title`. -/
def pyTitle (cs : List Char) : List Char := pyTitleAux false cs

/-- Model of Python `s.split(sep)` for a single-character separator, here the
underscore used by `snake_to_camel`: splits at every underscore, keeping
empty pieces. -/
def splitU : List Char → List (List Char)
  | [] => [[]]
  | c :: rest =>
    if c = '_' then [] :: splitU rest
    else
      match splitU rest with
      | [] => [[c]]
      | p :: ps => (c :: p) :: ps

/-- Inverse assembly of `splitU`: joins pieces with a single underscore. -/
def joinU : List (List Char) → List Char
  | [] => []
  | [w] => w
  | w :: ws => w ++ '_' :: joinU ws

/-- Model of Python `s.split("__")`: splits at every non-overlapping
occurrence of a double underscore, scanning left to right. -/
def splitDU : List Char → List (List Char)
  | [] => [[]]
  | [c] => [[c]]
  | a :: b :: rest =>
    if a = '_' ∧ b = '_' then [] :: splitDU rest
    else
      match splitDU (b :: rest) with
      | [] => [[a]]
      | p :: ps => (a :: p) :: ps

/-- Whether a character list contains two consecutive underscores, modelling
the Python test `'__' in snake_str`. -/
def hasDoubleU : List Char → Bool
  | [] => false
  | [_] => false
  | a :: b :: rest => (a = '_' && b = '_') || hasDoubleU (b :: rest)

/-- Model of Python `word.replace("_", "")`. -/
def removeU (w : List Char) : List Char := w.filter (fun c => c ≠ '_')

/-- Regex step of `camel_to_snake`: the substitution
`re.sub((?<!^)(?=[A-Z]), '_')` inserts an underscore before every ASCII
uppercase letter except at the start of the string. `underscoreRest` handles
every position after the first character. -/
def underscoreRest : List Char → List Char
  | [] => []
  | c :: rest => (if isUpperAlpha c then ['_', c] else [c]) ++ underscoreRest rest

/-- Regex substitution of `camel_to_snake` applied to the whole string: the
first character is never prefixed. -/
def underscoreBeforeUpper : List Char → List Char
  | [] => []
  | c :: rest => c :: underscoreRest rest

/-- Core of `camel_to_snake` from
src/fieldedge_utilities/microservice/properties.py (identical code also in
src/fieldedge_utilities/class_properties.py): insert an underscore before
each interior uppercase letter, lowercase everything, then, when the result
contains a double underscore, split on double underscores, strip underscores
inside each piece and re-join the pieces with single underscores. -/
def camelToSnakeCore (cs : List Char) : List Char :=
  let snake := pyLower (underscoreBeforeUpper cs)
  if hasDoubleU snake then joinU ((splitDU snake).map removeU)
  else snake

/-- Core of `snake_to_camel` from
src/fieldedge_utilities/microservice/properties.py: split on underscores;
a single piece equal to the input is returned unchanged; otherwise the first
piece is lowercased and every later piece is title-cased and concatenated. -/
def snakeToCamelCore (cs : List Char) : List Char :=
  let words := splitU cs
  if words.length = 1 ∧ words.headD [] = cs then cs
  else
    match words with
    | [] => cs
    | w :: ws => pyLower w ++ (ws.map pyTitle).flatten

/-- Embedding of `snake_to_camel(snake_str, skip_caps)`
(src/fieldedge_utilities/microservice/properties.py lines 49-67): raises
`ValueError` on an empty string, returns ALL-CAPS strings unchanged when
`skip_caps` is set, and otherwise camel-cases the snake_case input. -/
def snake_to_camel (snake_str : String) (skip_caps : Bool) : Except PyErr String :=
  if snake_str = "" then .error (.valueError "Invalid string input")
  else if pyIsUpper snake_str.data && skip_caps then .ok snake_str
  else .ok (String.mk (snakeToCamelCore snake_str.data))

/-- Embedding of `camel_to_snake(camel_str, skip_caps)`
(src/fieldedge_utilities/microservice/properties.py lines 24-46): raises
`ValueError` on an empty string, returns ALL-CAPS strings unchanged when
`skip_caps` is set, and otherwise snake-cases the camelCase input. -/
def camel_to_snake (camel_str : String) (skip_caps : Bool) : Except PyErr String :=
  if camel_str = "" then .error (.valueError "Invalid string input")
  else if pyIsUpper camel_str.data && skip_caps then .ok camel_str
  else .ok (String.mk (camelToSnakeCore camel_str.data))

example : snake_to_camel "power_mode" false = .ok "powerMode" := rfl
example : camel_to_snake "powerMode" false = .ok "power_mode" := rfl
example : snake_to_camel "unique_id" false = .ok "uniqueId" := rfl
example : camel_to_snake "modemUniqueId" false = .ok "modem_unique_id" := rfl
example : camel_to_snake "my__thing" false = .ok "my_thing" := rfl
example : snake_to_camel "abc" false = .ok "abc" := rfl

/-- Word of lowercase ASCII letters and digits, nonempty: the shape of the
first segment of a snake_case name (and of a routing tag), which
`snake_to_camel` passes through `str.lower` unchanged. -/
def lowerWord (w : List Char) : Bool :=
  !w.isEmpty && w.all (fun c => isLowerAlpha c || isDigitChar c)

/-- Lowercase letters followed only by digits: the tails for which Python
`str.title` is the identity once the first letter has been capitalized. -/
def lowersThenDigits : List Char → Bool
  | [] => true
  | c :: r => if isLowerAlpha c then lowersThenDigits r else (c :: r).all isDigitChar

/-- Word shape preserved by the `str.title` call of `snake_to_camel`: a
lowercase letter followed by lowercase letters then digits. A digit-leading
word, or a letter appearing after a digit, would be capitalized differently
and destroy the round trip. -/
def titleWord : List Char → Bool
  | [] => false
  | c :: r => isLowerAlpha c && lowersThenDigits r

/-- Valid snake_case word list: a nonempty head word of lowercase
alphanumerics, followed by title-safe words. This formalizes the spec's
"valid internal name containing no information-destroying collisions". -/
def validSnakeWords : List (List Char) → Bool
  | [] => false
  | w :: ws => lowerWord w && ws.all titleWord

/-- Valid snake_case internal property name, checked on the underscore-split
pieces of the string. -/
def validSnakeName (s : String) : Bool := validSnakeWords (splitU s.data)

theorem toNat_charOfNat (n : Nat) (h : n.isValidChar) : (Char.ofNat n).toNat = n := by
  simp only [Char.ofNat, dif_pos h, Char.ofNatAux, Char.toNat]
  rfl

theorem char_eq_of_toNat_eq (a b : Char) (h : a.toNat = b.toNat) : a = b := by
  have h2 : Char.ofNat a.toNat = Char.ofNat b.toNat := by rw [h]
  rwa [Char.ofNat_toNat, Char.ofNat_toNat] at h2

theorem not_upper_of_lower (c : Char) (h : isLowerAlpha c = true) :
    isUpperAlpha c = false := by
  simp only [isLowerAlpha, decide_eq_true_eq] at h
  simp only [isUpperAlpha, decide_eq_false_iff_not]
  omega

theorem not_upper_of_digit (c : Char) (h : isDigitChar c = true) :
    isUpperAlpha c = false := by
  simp only [isDigitChar, decide_eq_true_eq] at h
  simp only [isUpperAlpha, decide_eq_false_iff_not]
  omega

theorem not_lower_of_digit (c : Char) (h : isDigitChar c = true) :
    isLowerAlpha c = false := by
  simp only [isDigitChar, decide_eq_true_eq] at h
  simp only [isLowerAlpha, decide_eq_false_iff_not]
  omega

theorem ne_underscore_of_lower (c : Char) (h : isLowerAlpha c = true) : ¬(c = '_') := by
  intro heq
  subst heq
  exact absurd h (by decide)

theorem ne_underscore_of_digit (c : Char) (h : isDigitChar c = true) : ¬(c = '_') := by
  intro heq
  subst heq
  exact absurd h (by decide)

theorem ne_underscore_of_upper (c : Char) (h : isUpperAlpha c = true) : ¬(c = '_') := by
  intro heq
  subst heq
  exact absurd h (by decide)

theorem pyToLower_eq_self (c : Char) (h : isUpperAlpha c = false) : pyToLower c = c := by
  simp [pyToLower, h]

theorem pyToUpper_eq_self (c : Char) (h : isLowerAlpha c = false) : pyToUpper c = c := by
  simp [pyToUpper, h]

theorem toNat_pyToUpper (c : Char) (h : isLowerAlpha c = true) :
    (pyToUpper c).toNat = c.toNat - 32 := by
  simp only [isLowerAlpha, decide_eq_true_eq] at h
  simp only [pyToUpper, isLowerAlpha, decide_eq_true_eq, if_pos h]
  exact toNat_charOfNat _ (Or.inl (by omega))

theorem upper_pyToUpper (c : Char) (h : isLowerAlpha c = true) :
    isUpperAlpha (pyToUpper c) = true := by
  have ht := toNat_pyToUpper c h
  simp only [isLowerAlpha, decide_eq_true_eq] at h
  simp only [isUpperAlpha, decide_eq_true_eq, ht]
  omega

theorem pyToLower_pyToUpper (c : Char) (h : isLowerAlpha c = true) :
    pyToLower (pyToUpper c) = c := by
  have hu := upper_pyToUpper c h
  have ht := toNat_pyToUpper c h
  have hl := h
  simp only [isLowerAlpha, decide_eq_true_eq] at hl
  simp only [pyToLower, hu, if_pos]
  apply char_eq_of_toNat_eq
  rw [toNat_charOfNat _ (Or.inl (by omega))]
  omega

/-- Characters of a `lowerWord` or of a `titleWord` body are alphanumeric. -/
def alnumLower (c : Char) : Bool := isLowerAlpha c || isDigitChar c

theorem alnum_not_upper (c : Char) (h : alnumLower c = true) : isUpperAlpha c = false := by
  rcases Bool.or_eq_true_iff.mp h with h1 | h1
  · exact not_upper_of_lower c h1
  · exact not_upper_of_digit c h1

theorem alnum_ne_underscore (c : Char) (h : alnumLower c = true) : ¬(c = '_') := by
  rcases Bool.or_eq_true_iff.mp h with h1 | h1
  · exact ne_underscore_of_lower c h1
  · exact ne_underscore_of_digit c h1

theorem alnum_pyToLower (c : Char) (h : alnumLower c = true) : pyToLower c = c :=
  pyToLower_eq_self c (alnum_not_upper c h)

theorem lowersThenDigits_alnum (cs : List Char) (h : lowersThenDigits cs = true) :
    ∀ c ∈ cs, alnumLower c = true := by
  induction cs with
  | nil => intro c hc; cases hc
  | cons a r ih =>
    intro c hc
    by_cases ha : isLowerAlpha a = true
    · rw [lowersThenDigits, if_pos ha] at h
      rcases List.mem_cons.mp hc with hc | hc
      · subst hc; simp [alnumLower, ha]
      · exact ih h c hc
    · rw [lowersThenDigits, if_neg ha] at h
      rw [List.all_eq_true] at h
      have := h c hc
      simp [alnumLower, this]

theorem titleWord_alnum (w : List Char) (h : titleWord w = true) :
    ∀ c ∈ w, alnumLower c = true := by
  cases w with
  | nil => cases h
  | cons a r =>
    simp only [titleWord, Bool.and_eq_true] at h
    intro c hc
    rcases List.mem_cons.mp hc with hc | hc
    · subst hc; simp [alnumLower, h.1]
    · exact lowersThenDigits_alnum r h.2 c hc

theorem lowerWord_alnum (w : List Char) (h : lowerWord w = true) :
    ∀ c ∈ w, alnumLower c = true := by
  simp only [lowerWord, Bool.and_eq_true, List.all_eq_true] at h
  intro c hc
  exact h.2 c hc

theorem joinU_single (w : List Char) : joinU [w] = w := rfl

theorem joinU_cons_cons (w w2 : List Char) (ws : List (List Char)) :
    joinU (w :: w2 :: ws) = w ++ '_' :: joinU (w2 :: ws) := rfl

theorem splitU_ne_nil (cs : List Char) : splitU cs ≠ [] := by
  cases cs with
  | nil => simp [splitU]
  | cons c rest =>
    rw [splitU]
    by_cases h : c = '_'
    · simp [h]
    · rw [if_neg h]
      cases hs : splitU rest with
      | nil => simp
      | cons p ps => simp

theorem splitU_no_underscore (w : List Char) (h : ∀ c ∈ w, ¬(c = '_')) :
    splitU w = [w] := by
  induction w with
  | nil => rfl
  | cons c rest ih =>
    rw [splitU, if_neg (h c (List.mem_cons_self c rest))]
    rw [ih (fun x hx => h x (List.mem_cons_of_mem c hx))]

theorem splitU_word_underscore (w t : List Char) (h : ∀ c ∈ w, ¬(c = '_')) :
    splitU (w ++ '_' :: t) = w :: splitU t := by
  induction w with
  | nil => simp [splitU]
  | cons c rest ih =>
    have hc := h c (List.mem_cons_self c rest)
    rw [List.cons_append, splitU, if_neg hc,
        ih (fun x hx => h x (List.mem_cons_of_mem c hx))]

theorem splitU_joinU (ws : List (List Char)) (hne : ws ≠ [])
    (h : ∀ w ∈ ws, ∀ c ∈ w, ¬(c = '_')) : splitU (joinU ws) = ws := by
  induction ws with
  | nil => exact absurd rfl hne
  | cons w rest ih =>
    cases rest with
    | nil =>
      rw [joinU, splitU_no_underscore w (h w (List.mem_cons_self w []))]
    | cons w2 rest2 =>
      rw [joinU_cons_cons, splitU_word_underscore w _ (h w (List.mem_cons_self w _))]
      rw [ih (List.cons_ne_nil w2 rest2) (fun x hx => h x (List.mem_cons_of_mem w hx))]

theorem joinU_splitU (cs : List Char) : joinU (splitU cs) = cs := by
  induction cs with
  | nil => rfl
  | cons c rest ih =>
    rw [splitU]
    by_cases h : c = '_'
    · rw [if_pos h]
      subst h
      cases hs : splitU rest with
      | nil => exact absurd hs (splitU_ne_nil rest)
      | cons p ps =>
        rw [hs] at ih
        rw [joinU_cons_cons, List.nil_append, ih]
    · rw [if_neg h]
      cases hs : splitU rest with
      | nil => exact absurd hs (splitU_ne_nil rest)
      | cons p ps =>
        rw [hs] at ih
        cases ps with
        | nil =>
          rw [joinU_single] at ih ⊢
          rw [← ih]
        | cons q qs =>
          rw [joinU_cons_cons] at ih ⊢
          rw [List.cons_append, ih]

theorem underscoreRest_append (xs ys : List Char) :
    underscoreRest (xs ++ ys) = underscoreRest xs ++ underscoreRest ys := by
  induction xs with
  | nil => rfl
  | cons c rest ih =>
    rw [List.cons_append, underscoreRest, underscoreRest, ih, List.append_assoc]

theorem underscoreRest_no_upper (cs : List Char)
    (h : ∀ c ∈ cs, isUpperAlpha c = false) : underscoreRest cs = cs := by
  induction cs with
  | nil => rfl
  | cons c rest ih =>
    rw [underscoreRest, h c (List.mem_cons_self c rest)]
    rw [ih (fun x hx => h x (List.mem_cons_of_mem c hx))]
    rfl

theorem pyLower_no_upper (cs : List Char)
    (h : ∀ c ∈ cs, isUpperAlpha c = false) : pyLower cs = cs := by
  induction cs with
  | nil => rfl
  | cons c rest ih =>
    rw [pyLower, List.map_cons, pyToLower_eq_self c (h c (List.mem_cons_self c rest))]
    rw [show List.map pyToLower rest = pyLower rest from rfl]
    rw [ih (fun x hx => h x (List.mem_cons_of_mem c hx))]

theorem hasDoubleU_cons_ne (c : Char) (cs : List Char) (h : ¬(c = '_')) :
    hasDoubleU (c :: cs) = hasDoubleU cs := by
  cases cs with
  | nil => rfl
  | cons b rest =>
    rw [hasDoubleU]
    simp [h]

theorem hasDoubleU_underscore_cons (c : Char) (cs : List Char) (h : ¬(c = '_')) :
    hasDoubleU ('_' :: c :: cs) = hasDoubleU (c :: cs) := by
  rw [hasDoubleU]
  simp [h]

theorem pyTitleAux_false_digits (cs : List Char) (h : cs.all isDigitChar = true) :
    pyTitleAux false cs = cs := by
  induction cs with
  | nil => rfl
  | cons c rest ih =>
    rw [List.all_cons, Bool.and_eq_true] at h
    have hna : isAlphaChar c = false := by
      simp only [isAlphaChar, Bool.or_eq_false_iff]
      exact ⟨not_lower_of_digit c h.1, not_upper_of_digit c h.1⟩
    rw [pyTitleAux, hna]
    simp only [Bool.false_eq_true, if_false, cond_false]
    rw [ih h.2]

theorem pyTitleAux_true_ltd (cs : List Char) (h : lowersThenDigits cs = true) :
    pyTitleAux true cs = cs := by
  induction cs with
  | nil => rfl
  | cons c rest ih =>
    by_cases hl : isLowerAlpha c = true
    · rw [lowersThenDigits, if_pos hl] at h
      have ha : isAlphaChar c = true := by simp [isAlphaChar, hl]
      rw [pyTitleAux, ha]
      simp only [if_true]
      rw [pyToLower_eq_self c (not_upper_of_lower c hl), ih h]
    · rw [lowersThenDigits, if_neg hl] at h
      rw [List.all_cons, Bool.and_eq_true] at h
      have hna : isAlphaChar c = false := by
        simp only [isAlphaChar, Bool.or_eq_false_iff]
        exact ⟨not_lower_of_digit c h.1, not_upper_of_digit c h.1⟩
      rw [pyTitleAux, hna]
      simp only [Bool.false_eq_true, if_false, cond_false]
      rw [pyTitleAux_false_digits rest h.2]

theorem pyTitle_titleWord (c : Char) (r : List Char)
    (h : titleWord (c :: r) = true) : pyTitle (c :: r) = pyToUpper c :: r := by
  rw [titleWord, Bool.and_eq_true] at h
  have ha : isAlphaChar c = true := by simp [isAlphaChar, h.1]
  rw [pyTitle, pyTitleAux, ha]
  simp only [if_true, Bool.false_eq_true, if_false]
  rw [pyTitleAux_true_ltd r h.2]

theorem hasDoubleU_no_underscore (w : List Char) (h : ∀ c ∈ w, ¬(c = '_')) :
    hasDoubleU w = false := by
  induction w with
  | nil => rfl
  | cons c rest ih =>
    rw [hasDoubleU_cons_ne c rest (h c (List.mem_cons_self c rest))]
    exact ih (fun x hx => h x (List.mem_cons_of_mem c hx))

theorem hasDoubleU_word_append (w t : List Char) (h : ∀ c ∈ w, ¬(c = '_')) :
    hasDoubleU (w ++ t) = hasDoubleU t := by
  induction w with
  | nil => rfl
  | cons c rest ih =>
    rw [List.cons_append, hasDoubleU_cons_ne c _ (h c (List.mem_cons_self c rest))]
    exact ih (fun x hx => h x (List.mem_cons_of_mem c hx))

theorem joinU_head (d : Char) (ds : List Char) (ws : List (List Char)) :
    ∃ t, joinU ((d :: ds) :: ws) = d :: t := by
  cases ws with
  | nil => exact ⟨ds, rfl⟩
  | cons w2 rest => exact ⟨ds ++ '_' :: joinU (w2 :: rest), rfl⟩

theorem hasDoubleU_joinU (ws : List (List Char)) (hne : ∀ w ∈ ws, w ≠ [])
    (hu : ∀ w ∈ ws, ∀ c ∈ w, ¬(c = '_')) : hasDoubleU (joinU ws) = false := by
  induction ws with
  | nil => rfl
  | cons w rest ih =>
    cases rest with
    | nil =>
      rw [joinU_single]
      exact hasDoubleU_no_underscore w (hu w (List.mem_cons_self w []))
    | cons w2 rest2 =>
      rw [joinU_cons_cons,
          hasDoubleU_word_append w _ (hu w (List.mem_cons_self w _))]
      obtain ⟨d, ds, hw2⟩ : ∃ d ds, w2 = d :: ds := by
        cases hx : w2 with
        | nil => exact absurd hx (hne w2 (by simp))
        | cons d ds => exact ⟨d, ds, rfl⟩
      subst hw2
      obtain ⟨t, ht⟩ := joinU_head d ds rest2
      rw [ht, hasDoubleU_underscore_cons d t
            (hu (d :: ds) (by simp) d (List.mem_cons_self d ds)), ← ht]
      exact ih (fun x hx => hne x (List.mem_cons_of_mem w hx))
        (fun x hx => hu x (List.mem_cons_of_mem w hx))

theorem lowered_titled_flat (ws : List (List Char)) (h : ws.all titleWord = true) :
    pyLower (underscoreRest ((ws.map pyTitle).flatten)) =
      (ws.map (fun w => '_' :: w)).flatten := by
  induction ws with
  | nil => rfl
  | cons w rest ih =>
    rw [List.all_cons, Bool.and_eq_true] at h
    obtain ⟨c, r, hw⟩ : ∃ c r, w = c :: r := by
      cases hx : w with
      | nil => rw [hx] at h; cases h.1
      | cons c r => exact ⟨c, r, rfl⟩
    subst hw
    have hcl : isLowerAlpha c = true := by
      have := h.1
      rw [titleWord, Bool.and_eq_true] at this
      exact this.1
    have hrd : lowersThenDigits r = true := by
      have := h.1
      rw [titleWord, Bool.and_eq_true] at this
      exact this.2
    have hr_alnum := lowersThenDigits_alnum r hrd
    rw [List.map_cons, List.flatten_cons, pyTitle_titleWord c r h.1]
    rw [List.cons_append, underscoreRest, if_pos (upper_pyToUpper c hcl)]
    rw [underscoreRest_append,
        underscoreRest_no_upper r (fun x hx => alnum_not_upper x (hr_alnum x hx))]
    rw [show ['_', pyToUpper c] ++ (r ++ underscoreRest ((rest.map pyTitle).flatten)) =
          '_' :: pyToUpper c :: (r ++ underscoreRest ((rest.map pyTitle).flatten)) from rfl]
    rw [pyLower, List.map_cons, List.map_cons, List.map_append]
    rw [show pyToLower '_' = '_' from by decide, pyToLower_pyToUpper c hcl]
    rw [show List.map pyToLower r = pyLower r from rfl,
        pyLower_no_upper r (fun x hx => alnum_not_upper x (hr_alnum x hx))]
    rw [show List.map pyToLower (underscoreRest ((rest.map pyTitle).flatten)) =
          pyLower (underscoreRest ((rest.map pyTitle).flatten)) from rfl]
    rw [ih h.2]
    simp [List.flatten_cons]

theorem flatten_underscore_words (ws : List (List Char)) (hne : ws ≠ []) :
    (ws.map (fun w => '_' :: w)).flatten = '_' :: joinU ws := by
  induction ws with
  | nil => exact absurd rfl hne
  | cons w rest ih =>
    cases rest with
    | nil => simp [joinU_single]
    | cons w2 rest2 =>
      rw [List.map_cons, List.flatten_cons, ih (List.cons_ne_nil w2 rest2),
          joinU_cons_cons]
      simp

theorem titleWord_ne_nil (w : List Char) (h : titleWord w = true) : w ≠ [] := by
  cases w with
  | nil => cases h
  | cons c r => exact List.cons_ne_nil c r

theorem lowerWord_ne_nil (w : List Char) (h : lowerWord w = true) : w ≠ [] := by
  rw [lowerWord, Bool.and_eq_true] at h
  have := h.1
  cases w with
  | nil => simp at this
  | cons c r => exact List.cons_ne_nil c r

theorem validSnakeWords_no_underscore (w : List Char) (ws : List (List Char))
    (hw : lowerWord w = true) (hws : ws.all titleWord = true) :
    ∀ x ∈ w :: ws, ∀ c ∈ x, ¬(c = '_') := by
  intro x hx c hc
  rcases List.mem_cons.mp hx with hx | hx
  · subst hx
    exact alnum_ne_underscore c (lowerWord_alnum x hw c hc)
  · rw [List.all_eq_true] at hws
    exact alnum_ne_underscore c (titleWord_alnum x (hws x hx) c hc)

theorem snakeToCamelCore_single (w : List Char) (hw : lowerWord w = true) :
    snakeToCamelCore w = w := by
  have hno_u : ∀ c ∈ w, ¬(c = '_') :=
    fun c hc => alnum_ne_underscore c (lowerWord_alnum w hw c hc)
  simp only [snakeToCamelCore, splitU_no_underscore w hno_u]
  simp

theorem camelToSnakeCore_lower (w : List Char) (hw : lowerWord w = true) :
    camelToSnakeCore w = w := by
  have halnum := lowerWord_alnum w hw
  have hno_u : ∀ c ∈ w, ¬(c = '_') := fun c hc => alnum_ne_underscore c (halnum c hc)
  have hno_up : ∀ c ∈ w, isUpperAlpha c = false :=
    fun c hc => alnum_not_upper c (halnum c hc)
  obtain ⟨c0, w0, hw0⟩ : ∃ c0 w0, w = c0 :: w0 := by
    cases hx : w with
    | nil => exact absurd hx (lowerWord_ne_nil w hw)
    | cons c0 w0 => exact ⟨c0, w0, rfl⟩
  subst hw0
  have hbu : underscoreBeforeUpper (c0 :: w0) = c0 :: w0 := by
    rw [underscoreBeforeUpper,
        underscoreRest_no_upper w0 (fun x hx => hno_up x (List.mem_cons_of_mem c0 hx))]
  simp only [camelToSnakeCore, hbu, pyLower_no_upper _ hno_up,
             hasDoubleU_no_underscore _ hno_u]
  simp

theorem roundTripCore (w : List Char) (ws : List (List Char))
    (hw : lowerWord w = true) (hws : ws.all titleWord = true) :
    camelToSnakeCore (snakeToCamelCore (joinU (w :: ws))) = joinU (w :: ws) := by
  have hno_u := validSnakeWords_no_underscore w ws hw hws
  cases ws with
  | nil =>
    rw [joinU_single, snakeToCamelCore_single w hw, camelToSnakeCore_lower w hw]
  | cons w2 rest =>
    have hsplit := splitU_joinU (w :: w2 :: rest) (List.cons_ne_nil _ _) hno_u
    have halnum := lowerWord_alnum w hw
    have hno_up : ∀ c ∈ w, isUpperAlpha c = false :=
      fun c hc => alnum_not_upper c (halnum c hc)
    have hcond : ¬((splitU (joinU (w :: w2 :: rest))).length = 1 ∧
        (splitU (joinU (w :: w2 :: rest))).headD [] = joinU (w :: w2 :: rest)) := by
      rw [hsplit]
      intro hcontra
      simp at hcontra
    rw [snakeToCamelCore]
    rw [if_neg hcond, hsplit]
    show camelToSnakeCore (pyLower w ++ ((w2 :: rest).map pyTitle).flatten) =
      joinU (w :: w2 :: rest)
    rw [pyLower_no_upper w hno_up]
    obtain ⟨c0, w0, hw0⟩ : ∃ c0 w0, w = c0 :: w0 := by
      cases hx : w with
      | nil => exact absurd hx (lowerWord_ne_nil w hw)
      | cons c0 w0 => exact ⟨c0, w0, rfl⟩
    subst hw0
    rw [camelToSnakeCore]
    rw [List.cons_append, underscoreBeforeUpper, underscoreRest_append,
        underscoreRest_no_upper w0
          (fun x hx => hno_up x (List.mem_cons_of_mem c0 hx))]
    rw [show (c0 :: (w0 ++ underscoreRest (((w2 :: rest).map pyTitle).flatten))) =
          (c0 :: w0) ++ underscoreRest (((w2 :: rest).map pyTitle).flatten) from by simp]
    rw [pyLower, List.map_append,
        show List.map pyToLower (c0 :: w0) = pyLower (c0 :: w0) from rfl,
        show List.map pyToLower (underscoreRest (((w2 :: rest).map pyTitle).flatten)) =
          pyLower (underscoreRest (((w2 :: rest).map pyTitle).flatten)) from rfl]
    rw [pyLower_no_upper _ hno_up, lowered_titled_flat _ hws,
        flatten_underscore_words _ (List.cons_ne_nil w2 rest)]
    rw [show ((c0 :: w0) ++ '_' :: joinU (w2 :: rest)) = joinU ((c0 :: w0) :: w2 :: rest)
          from (joinU_cons_cons _ _ _).symm]
    rw [hasDoubleU_joinU (((c0 :: w0)) :: w2 :: rest)
          (by
            intro x hx
            rcases List.mem_cons.mp hx with hx | hx
            · subst hx; exact List.cons_ne_nil c0 w0
            · rw [List.all_eq_true] at hws
              exact titleWord_ne_nil x (hws x hx))
          hno_u]
    simp

/-- Model of Python `s.split('_', 1)`: the piece before the first underscore
and, when an underscore exists, the remainder after it. -/
def splitFirstU : List Char → List Char × Option (List Char)
  | [] => ([], none)
  | c :: rest =>
    if c = '_' then ([], some rest)
    else
      let r := splitFirstU rest
      (c :: r.1, r.2)

theorem splitFirstU_word (t p : List Char) (h : ∀ c ∈ t, ¬(c = '_')) :
    splitFirstU (t ++ '_' :: p) = (t, some p) := by
  induction t with
  | nil => simp [splitFirstU]
  | cons c rest ih =>
    rw [List.cons_append, splitFirstU]
    rw [if_neg (h c (List.mem_cons_self c rest))]
    rw [ih (fun x hx => h x (List.mem_cons_of_mem c hx))]

theorem any_underscore_mid (t p : List Char) :
    (t ++ '_' :: p).any (fun c => c = '_') = true := by
  rw [List.any_append]
  simp

/-- Embedding of `tag_class_property(prop, tag_or_cls, json)`
(src/fieldedge_utilities/microservice/properties.py lines 269-285, duplicated
in src/fieldedge_utilities/class_properties.py lines 255-271). A class-typed
`tag_or_cls` is reduced by the caller to its lowercase class name, so the
model takes an optional string tag. With no tag and `json=False` the source
returns an unbound local and raises `NameError`. -/
def tag_class_property (prop : String) (tag_or_cls : Option String) (json : Bool) :
    Except PyErr String :=
  match tag_or_cls with
  | none =>
    if json then snake_to_camel prop false
    else .error .nameError
  | some tag =>
    let tagged := String.mk (pyLower tag.data) ++ "_" ++ prop
    if json then snake_to_camel tagged false
    else .ok (tag ++ "_" ++ prop)

/-- Embedding of `untag_class_property(property_name, is_tagged, include_tag)`
(src/fieldedge_utilities/microservice/properties.py lines 288-315): converts
to snake_case, then, when `is_tagged`, raises `ValueError` if no underscore
is present and otherwise splits off the first segment as the tag; the result
is the plain property name, or a pair of name and tag when `include_tag`. -/
def untag_class_property (property_name : String) (is_tagged include_tag : Bool) :
    Except PyErr (String ⊕ (String × Option String)) :=
  match camel_to_snake property_name false with
  | .error e => .error e
  | .ok prop0 =>
    if is_tagged then
      if prop0.data.any (fun c => c = '_') then
        match splitFirstU prop0.data with
        | (tagcs, some propcs) =>
          if include_tag then .ok (.inr (String.mk propcs, some (String.mk tagcs)))
          else .ok (.inl (String.mk propcs))
        | (_, none) => .error (.valueError "not enough values to unpack")
      else .error (.valueError ("Invalid tagged " ++ property_name))
    else
      if include_tag then .ok (.inr (prop0, none))
      else .ok (.inl prop0)

example : tag_class_property "unique_id" (some "modem") true = .ok "modemUniqueId" := rfl
example : untag_class_property "modemUniqueId" true true =
    .ok (.inr ("unique_id", some "modem")) := rfl
example : untag_class_property "modemX" true true = .ok (.inr ("x", some "modem")) := rfl
example : tag_class_property "x" (some "Modem") true = .ok "modemX" := rfl

theorem camelToSnakeCore_nil : camelToSnakeCore [] = [] := rfl

theorem snake_to_camel_of_valid (s : String) (hne : ¬(s = "")) :
    snake_to_camel s false = .ok (String.mk (snakeToCamelCore s.data)) := by
  rw [snake_to_camel, if_neg hne]
  simp [Bool.and_false]

theorem camel_to_snake_of_valid (s : String) (hne : ¬(s = "")) :
    camel_to_snake s false = .ok (String.mk (camelToSnakeCore s.data)) := by
  rw [camel_to_snake, if_neg hne]
  simp [Bool.and_false]

/-- C9: for every valid internal snake_case name — nonempty lowercase
alphanumeric words joined by single underscores, where words after the first
begin with a letter and contain no letter after a digit (the class with no
information-destroying collisions) — converting to the wire camelCase form
and back is the identity: `camel_to_snake (snake_to_camel n) = n`. -/
theorem snake_camel_round_trip (s : String) (h : validSnakeName s = true) :
    (snake_to_camel s false).bind (fun w => camel_to_snake w false) = .ok s := by
  rw [validSnakeName] at h
  obtain ⟨w, ws, hsplit⟩ : ∃ w ws, splitU s.data = w :: ws := by
    cases hx : splitU s.data with
    | nil => exact absurd hx (splitU_ne_nil s.data)
    | cons w ws => exact ⟨w, ws, rfl⟩
  rw [hsplit, validSnakeWords, Bool.and_eq_true] at h
  have hjoin : joinU (w :: ws) = s.data := by
    rw [← hsplit, joinU_splitU]
  have hsdata : ¬(s.data = []) := by
    intro hx
    rw [hx] at hsplit
    have hw : w = [] := (List.cons.injEq _ _ _ _ ▸ (by
      simpa [splitU] using hsplit.symm : ([[]] : List (List Char)) = w :: ws)).1.symm
    rw [hw] at h
    simp [lowerWord] at h
  have hsne : ¬(s = "") := by
    intro hx
    apply hsdata
    rw [hx]
  have hrt : camelToSnakeCore (snakeToCamelCore s.data) = s.data := by
    rw [← hjoin]
    exact roundTripCore w ws h.1 h.2
  rw [snake_to_camel_of_valid s hsne, Except.bind]
  have hcne : ¬(String.mk (snakeToCamelCore s.data) = "") := by
    intro hx
    have hdat : snakeToCamelCore s.data = [] := by
      have := congrArg String.data hx
      simpa using this
    rw [hdat, camelToSnakeCore_nil] at hrt
    exact hsdata hrt.symm
  rw [camel_to_snake_of_valid _ hcne]
  show Except.ok (String.mk (camelToSnakeCore (snakeToCamelCore s.data))) = .ok s
  rw [hrt]

/-- Witness for C9 at the concrete internal name power_mode. -/
theorem snake_camel_round_trip_witness :
    validSnakeName "power_mode" = true ∧
    (snake_to_camel "power_mode" false).bind (fun w => camel_to_snake w false) =
      .ok "power_mode" :=
  ⟨by decide, snake_camel_round_trip "power_mode" (by decide)⟩

/-- C8 counterexample: at name x and tag Modem the tagged wire name is
modemX, whose untagging returns the lowercased tag modem, not the original
tag Modem, so the round trip fails as universally stated. -/
theorem tag_round_trip_counterexample :
    tag_class_property "x" (some "Modem") true = .ok "modemX" ∧
    untag_class_property "modemX" true true = .ok (.inr ("x", some "modem")) ∧
    ¬((tag_class_property "x" (some "Modem") true).bind
        (fun w => untag_class_property w true true) =
      .ok (.inr ("x", some "Modem"))) := by
  refine ⟨rfl, rfl, ?_⟩
  intro h
  rw [show (tag_class_property "x" (some "Modem") true).bind
        (fun w => untag_class_property w true true) =
      Except.ok (Sum.inr ("x", some "modem")) from rfl] at h
  simp only [Except.ok.injEq, Sum.inr.injEq, Prod.mk.injEq, Option.some.injEq] at h
  exact absurd h.2 (by decide)

/-- C8 amended: for a name whose underscore-split words are all title-safe
(each a lowercase letter followed by lowercase letters then digits) and a
tag that is a single nonempty lowercase alphanumeric word, untagging the
tagged wire name with include_tag returns exactly the pair of the name and
the tag. -/
theorem tag_round_trip_amended (name tag : String)
    (hname : (splitU name.data).all titleWord = true)
    (htag : lowerWord tag.data = true) :
    (tag_class_property name (some tag) true).bind
      (fun w => untag_class_property w true true) = .ok (.inr (name, some tag)) := by
  obtain ⟨nw, nws, hsplit⟩ : ∃ nw nws, splitU name.data = nw :: nws := by
    cases hx : splitU name.data with
    | nil => exact absurd hx (splitU_ne_nil name.data)
    | cons nw nws => exact ⟨nw, nws, rfl⟩
  rw [hsplit] at hname
  have hjoin : joinU (nw :: nws) = name.data := by
    rw [← hsplit, joinU_splitU]
  have htag_alnum := lowerWord_alnum tag.data htag
  have htag_no_up : ∀ c ∈ tag.data, isUpperAlpha c = false :=
    fun c hc => alnum_not_upper c (htag_alnum c hc)
  have htag_no_u : ∀ c ∈ tag.data, ¬(c = '_') :=
    fun c hc => alnum_ne_underscore c (htag_alnum c hc)
  have htagne := lowerWord_ne_nil tag.data htag
  have htagged_data :
      (String.mk (pyLower tag.data) ++ "_" ++ name).data =
        tag.data ++ '_' :: name.data := by
    rw [String.data_append, String.data_append, pyLower_no_upper tag.data htag_no_up]
    simp
  have htagged_join :
      (String.mk (pyLower tag.data) ++ "_" ++ name).data =
        joinU (tag.data :: nw :: nws) := by
    rw [htagged_data, joinU_cons_cons, hjoin]
  have htaggedne : ¬((String.mk (pyLower tag.data) ++ "_" ++ name) = "") := by
    intro hx
    have := congrArg String.data hx
    rw [htagged_data] at this
    cases hy : tag.data with
    | nil => exact htagne hy
    | cons a b => rw [hy] at this; simp at this
  have hstep1 : tag_class_property name (some tag) true =
      .ok (String.mk (snakeToCamelCore
        (String.mk (pyLower tag.data) ++ "_" ++ name).data)) := by
    rw [tag_class_property]
    simp only [if_true]
    exact snake_to_camel_of_valid _ htaggedne
  have hrt : camelToSnakeCore (snakeToCamelCore
      (String.mk (pyLower tag.data) ++ "_" ++ name).data) =
        tag.data ++ '_' :: name.data := by
    rw [htagged_join, roundTripCore tag.data (nw :: nws) htag hname, joinU_cons_cons,
        hjoin]
  have hcamne : ¬(String.mk (snakeToCamelCore
      (String.mk (pyLower tag.data) ++ "_" ++ name).data) = "") := by
    intro hx
    have hdat : snakeToCamelCore
        (String.mk (pyLower tag.data) ++ "_" ++ name).data = [] := by
      have := congrArg String.data hx
      simpa using this
    rw [hdat, camelToSnakeCore_nil] at hrt
    cases hy : tag.data with
    | nil => exact htagne hy
    | cons a b => rw [hy] at hrt; simp at hrt
  rw [hstep1, Except.bind, untag_class_property,
      camel_to_snake_of_valid _ hcamne]
  simp only [hrt, if_true]
  rw [any_underscore_mid tag.data name.data]
  simp only [if_true]
  rw [splitFirstU_word tag.data name.data htag_no_u]

/-- Witness for C8 amended at the concrete pair of name unique_id and tag
modem, the example used in the source docstrings. -/
theorem tag_round_trip_amended_witness :
    (splitU "unique_id".data).all titleWord = true ∧
    lowerWord "modem".data = true ∧
    (tag_class_property "unique_id" (some "modem") true).bind
      (fun w => untag_class_property w true true) =
      .ok (.inr ("unique_id", some "modem")) :=
  ⟨by decide, by decide,
    tag_round_trip_amended "unique_id" "modem" (by decide) (by decide)⟩

/-- Python dict assignment `d[k] = v` on an association list with unique
keys: overwrites in place when the key exists, appends otherwise. -/
def dictInsert {α : Type} (d : List (String × α)) (k : String) (v : α) :
    List (String × α) :=
  if d.any (fun kv => kv.1 = k) then
    d.map (fun kv => if kv.1 = k then (k, v) else kv)
  else d ++ [(k, v)]

/-- Python dict lookup `d[k]` / `d.get(k)` on an association list. -/
def dictLookup {α : Type} (d : List (String × α)) (k : String) : Option α :=
  match d.find? (fun kv => kv.1 = k) with
  | some kv => some kv.2
  | none => none

/-- Python membership test `k in d`. -/
def dictHasKey {α : Type} (d : List (String × α)) (k : String) : Bool :=
  d.any (fun kv => kv.1 = k)

/-- Python `del d[k]`. -/
def dictErase {α : Type} (d : List (String × α)) (k : String) :
    List (String × α) :=
  d.filter (fun kv => ¬(kv.1 = k))

/-- Property cache of a FieldedgeMicroservice: each tag maps to the pair of
the integer caching time and the lifetime passed to `cache_property`. The
source annotates the lifetime as `int` but callers may pass `None`, which
the model keeps as an option to exercise the comparison against `None`. -/
def PropertyCacheState : Type := List (String × (Int × Option Int))

/-- Embedding of `FieldedgeMicroservice.cache_property(cache_tag,
cache_lifetime)` (src/fieldedge_utilities/isc.py lines 107-120): records
`(int(time.time()), cache_lifetime)` under the tag, overwriting any prior
entry (the overwrite warning log is a no-op in the model). -/
def FieldedgeMicroservice.cache_property (cache : PropertyCacheState) (now : Int)
    (cache_tag : String) (cache_lifetime : Option Int) : PropertyCacheState :=
  dictInsert cache cache_tag (now, cache_lifetime)

/-- Embedding of `FieldedgeMicroservice.cache_valid(cache_tag)`
(src/fieldedge_utilities/isc.py lines 122-142): a missing tag is invalid; a
present tag is valid when `time.time() - cache_time < cache_lifetime`, and
otherwise the entry is deleted and the check returns invalid. Comparing
against a `None` lifetime raises `TypeError` in Python 3, which the model
mirrors. Returns the verdict together with the possibly-updated cache. -/
def FieldedgeMicroservice.cache_valid (cache : PropertyCacheState) (now : Int)
    (cache_tag : String) : Except PyErr (Bool × PropertyCacheState) :=
  match dictLookup cache cache_tag with
  | none => .ok (false, cache)
  | some (_, none) => .error .typeError
  | some (t, some l) =>
    if now - t < l then .ok (true, cache)
    else .ok (false, dictErase cache cache_tag)

/-- Embedding of the module-level `cache_valid(ref_time, max_age, tag)`
(src/fieldedge_utilities/class_properties.py lines 69-108): a `None`
reference time is invalid; otherwise the entry is stale exactly when
`int(time()) - ref_time > max_age`. The function inspects nothing else and
never mutates any cache. -/
def ClassProperties.cache_valid (now : Int) (ref_time : Option Int)
    (max_age : Int) : Bool :=
  match ref_time with
  | none => false
  | some t => !(decide (now - t > max_age))

example : ClassProperties.cache_valid 1000 (some 1000) 0 = true := rfl
example : ClassProperties.cache_valid 1001 (some 1000) 0 = false := rfl
example : FieldedgeMicroservice.cache_valid [("p", ((990 : Int), some 5))] 1000 "p" =
    .ok (false, []) := rfl

/-- C5 counterexample: an entry cached with lifetime 0 is reported valid by
class_properties.cache_valid on a check in the same second (the code tests
age > max_age rather than a strict age < max_age validity), and isc.py
cache_valid raises TypeError on a None lifetime instead of treating the
entry as valid at every later time. -/
theorem cache_valid_counterexample :
    ClassProperties.cache_valid 1000 (some 1000) 0 = true ∧
    FieldedgeMicroservice.cache_valid [("p", ((990 : Int), none))] 1000 "p" =
      .error .typeError := ⟨rfl, rfl⟩

/-- C5 amended: class_properties.cache_valid reports an entry valid exactly
when its reference time is not None and its integer age is at most max_age
(non-strict, so a lifetime-0 entry stays valid within the caching second,
and it removes nothing); FieldedgeMicroservice.cache_valid reports a cached
tag valid exactly when its age is strictly below its lifetime, removes the
entry from the cache when the check finds it expired, and raises TypeError
on a None lifetime rather than treating it as valid forever. -/
theorem cache_valid_amended :
    (∀ now t l, ClassProperties.cache_valid now (some t) l = true ↔ now - t ≤ l) ∧
    (∀ now l, ClassProperties.cache_valid now none l = false) ∧
    (∀ cache now tag t l, dictLookup cache tag = some (t, some l) →
      (FieldedgeMicroservice.cache_valid cache now tag = .ok (true, cache) ↔
        now - t < l)) ∧
    (∀ cache now tag t l, dictLookup cache tag = some (t, some l) → l ≤ now - t →
      FieldedgeMicroservice.cache_valid cache now tag =
        .ok (false, dictErase cache tag)) ∧
    (∀ cache now tag t, dictLookup cache tag = some (t, none) →
      FieldedgeMicroservice.cache_valid cache now tag = .error .typeError) := by
  refine ⟨?_, ?_, ?_, ?_, ?_⟩
  · intro now t l
    simp only [ClassProperties.cache_valid, Bool.not_eq_true']
    constructor
    · intro h
      have := of_decide_eq_false h
      omega
    · intro h
      apply decide_eq_false
      omega
  · intro now l
    rfl
  · intro cache now tag t l hfound
    simp only [FieldedgeMicroservice.cache_valid, hfound]
    by_cases hlt : now - t < l
    · rw [if_pos hlt]
      simp [hlt]
    · rw [if_neg hlt]
      constructor
      · intro h
        simp at h
      · intro h
        exact absurd h hlt
  · intro cache now tag t l hfound hle
    simp only [FieldedgeMicroservice.cache_valid, hfound]
    rw [if_neg (by omega)]
  · intro cache now tag t hfound
    simp only [FieldedgeMicroservice.cache_valid, hfound]

/-- Witness for C5 amended: a tag cached at time 990 with lifetime 5 is
expired at time 1000 and gets removed, and a class_properties entry of age
2 with max_age 3 is valid. -/
theorem cache_valid_amended_witness :
    FieldedgeMicroservice.cache_valid [("p", ((990 : Int), some 5))] 1000 "p" =
      .ok (false, dictErase [("p", ((990 : Int), some 5))] "p") ∧
    ClassProperties.cache_valid 1000 (some 998) 3 = true := by
  constructor
  · exact cache_valid_amended.2.2.2.1 [("p", ((990 : Int), some 5))] 1000 "p" 990 5
      rfl (by omega)
  · exact (cache_valid_amended.1 1000 998 3).mpr (by omega)

/-- Values stored in a task's `cb_meta` dictionary: strings, numbers, or
Python callables identified by a label so an invocation can be recorded. -/
inductive MetaVal where
  | null
  | str (s : String)
  | num (n : Int)
  | fn (id : Nat)
  deriving Repr, DecidableEq

/-- Python `callable(...)` test on a metadata value. -/
def MetaVal.callable : MetaVal → Bool
  | .fn _ => true
  | _ => false

/-- Embedding of `QueuedIscTask` (src/fieldedge_utilities/isc.py lines
308-352): unique id, task type, optional callback, queue timestamp,
optional lifetime in seconds (None means never expires) and optional
metadata dictionary. -/
structure QueuedIscTask where
  uid : String
  task_type : Option String
  callback : Option Nat
  queued_time : Int
  lifetime : Option Int
  cb_meta : Option (List (String × MetaVal))
  deriving Repr, DecidableEq

/-- Argument passed to `IscTaskQueue.append`: either an actual task or any
other Python object, which the type check rejects. -/
inductive PyItem where
  | task (t : QueuedIscTask)
  | other (descr : String)

/-- Embedding of `IscTaskQueue.append(item)` (src/fieldedge_utilities/isc.py
lines 358-362): raises `ValueError` when the item is not a `QueuedIscTask`
and otherwise appends it to the end of the list. The source performs no
other check. -/
def IscTaskQueue.append (q : List QueuedIscTask) (item : PyItem) :
    Except PyErr (List QueuedIscTask) :=
  match item with
  | .other _ => .error (.valueError "item must be QueuedIscTask type")
  | .task t => .ok (q ++ [t])

/-- Embedding of `IscTaskQueue.is_queued(task_id)` by-id search
(src/fieldedge_utilities/isc.py lines 368-384, id branch). -/
def IscTaskQueue.is_queued (q : List QueuedIscTask) (task_id : String) : Bool :=
  q.any (fun t => t.uid = task_id)

/-- Python `list.pop(i)` for a non-negative index: the removed element and
the remaining list, or `IndexError` when the index is out of range. -/
def pyPop {α : Type} (l : List α) (i : Nat) : Except PyErr (α × List α) :=
  if h : i < l.length then .ok (l.get ⟨i, h⟩, l.take i ++ l.drop (i + 1))
  else .error .indexError

/-- Expiry test of the `remove_expired` scan: a task with a None lifetime
never expires; otherwise it is expired when `time.time() - queued_time >
lifetime`. -/
def taskExpired (now : Int) (t : QueuedIscTask) : Bool :=
  match t.lifetime with
  | none => false
  | some lt => decide (now - t.queued_time > lt)

/-- Result of a `remove_expired` run: the remaining queue and the recorded
callback invocations, each the label of the called object and the metadata
dictionary passed to it. -/
structure RemoveExpiredResult where
  queue : List QueuedIscTask
  invocations : List (Nat × List (String × MetaVal))
  deriving Repr, DecidableEq

/-- Removal loop of `remove_expired`: pops each recorded index in turn from
the current (shrinking) list — exactly as the source iterates `for i in
expired: rem = self.pop(i)` — and, for a popped task whose metadata holds a
callable under `timeout_callback`, builds the timeout metadata (task_id
plus every non-callback entry) and then invokes `rem.cb_meta['timeout']`,
the key the source actually subscripts: a missing `timeout` key raises
`KeyError`, a non-callable `timeout` value raises `TypeError`. -/
def removeExpiredLoop (idxs : List Nat) (q : List QueuedIscTask)
    (acc : List (Nat × List (String × MetaVal))) : Except PyErr RemoveExpiredResult :=
  match idxs with
  | [] => .ok ⟨q, acc⟩
  | i :: rest =>
    match pyPop q i with
    | .error e => .error e
    | .ok (rem, q2) =>
      match rem.cb_meta with
      | none => removeExpiredLoop rest q2 acc
      | some meta =>
        match dictLookup meta "timeout_callback" with
        | none => removeExpiredLoop rest q2 acc
        | some cbv =>
          if cbv.callable then
            let timeout_meta := meta.foldl
              (fun acc2 kv =>
                if kv.1 = "timeout_callback" then acc2
                else dictInsert acc2 kv.1 kv.2)
              [("task_id", MetaVal.str rem.uid)]
            match dictLookup meta "timeout" with
            | none => .error (.keyError "timeout")
            | some v =>
              match v with
              | .fn id => removeExpiredLoop rest q2 (acc ++ [(id, timeout_meta)])
              | _ => .error .typeError
          else removeExpiredLoop rest q2 acc

/-- Embedding of `IscTaskQueue.remove_expired()`
(src/fieldedge_utilities/isc.py lines 397-427): collects the indices of
expired tasks against the original list, then pops those indices one by one
from the mutating list, firing the timeout path for each popped task. -/
def IscTaskQueue.remove_expired (now : Int) (q : List QueuedIscTask) :
    Except PyErr RemoveExpiredResult :=
  if q.length = 0 then .ok ⟨q, []⟩
  else removeExpiredLoop
    ((q.enum.filter (fun p => taskExpired now p.2)).map Prod.fst) q []

/-- Expired test task that carries only a timeout_callback in its metadata,
as the spec scenario prescribes. -/
def c1Task : QueuedIscTask :=
  { uid := "t1", task_type := some "test", callback := none,
    queued_time := 0, lifetime := some 1,
    cb_meta := some [("timeout_callback", .fn 0)] }

/-- Expired test task whose metadata carries both a timeout lifetime
override and a timeout_callback, the shape `MicroserviceProxy.initialize`
builds. -/
def c1TaskBoth : QueuedIscTask :=
  { uid := "t2", task_type := some "test", callback := none,
    queued_time := 0, lifetime := some 1,
    cb_meta := some [("timeout", .num 10), ("timeout_callback", .fn 0)] }

/-- C1: remove_expired never successfully invokes a timeout_callback. The
guard checks that cb_meta has a callable under timeout_callback but the
call site subscripts cb_meta['timeout']: with only timeout_callback present
the sweep raises KeyError (no invocation recorded), and with a numeric
timeout also present it raises TypeError by calling the number. -/
theorem remove_expired_timeout_callback_bug :
    IscTaskQueue.remove_expired 2 [c1Task] = .error (.keyError "timeout") ∧
    IscTaskQueue.remove_expired 2 [c1TaskBoth] = .error .typeError ∧
    taskExpired 2 c1Task = true := ⟨rfl, rfl, rfl⟩

/-- Expired test task without metadata. -/
def c2TaskA : QueuedIscTask :=
  { uid := "a", task_type := none, callback := none,
    queued_time := 0, lifetime := some 1, cb_meta := none }

/-- Second expired test task without metadata. -/
def c2TaskB : QueuedIscTask :=
  { uid := "b", task_type := none, callback := none,
    queued_time := 0, lifetime := some 1, cb_meta := none }

/-- Unexpired test task whose lifetime has not yet elapsed. -/
def c2TaskLive : QueuedIscTask :=
  { uid := "live", task_type := none, callback := none,
    queued_time := 0, lifetime := some 100, cb_meta := none }

/-- C2: when two or more tasks expire in the same sweep the pop indices,
collected against the original list, are applied to the shrinking list:
with exactly two expired tasks the sweep raises IndexError, and with two
expired tasks followed by a live one the sweep removes the first expired
task and the live task while the second expired task stays queued. -/
theorem remove_expired_multi_expiry_bug :
    IscTaskQueue.remove_expired 5 [c2TaskA, c2TaskB] = .error .indexError ∧
    IscTaskQueue.remove_expired 5 [c2TaskA, c2TaskB, c2TaskLive] =
      .ok ⟨[c2TaskB], []⟩ ∧
    taskExpired 5 c2TaskB = true ∧
    taskExpired 5 c2TaskLive = false ∧
    IscTaskQueue.remove_expired 5 [c2TaskA] = .ok ⟨[], []⟩ := ⟨rfl, rfl, rfl, rfl, rfl⟩

/-- Task used to exhibit duplicate-uid acceptance. -/
def dupTaskA : QueuedIscTask :=
  { uid := "dup", task_type := some "first", callback := none,
    queued_time := 0, lifetime := some 10, cb_meta := none }

/-- Second task with the same uid as `dupTaskA`. -/
def dupTaskB : QueuedIscTask :=
  { uid := "dup", task_type := some "second", callback := none,
    queued_time := 1, lifetime := some 10, cb_meta := none }

/-- C3 counterexample: appending a task whose uid is already queued does
not fail — the queue ends up holding two tasks with the same uid, so
append performs no duplicate-uid check at all. -/
theorem append_duplicate_counterexample :
    IscTaskQueue.is_queued [dupTaskA] "dup" = true ∧
    IscTaskQueue.append [dupTaskA] (.task dupTaskB) = .ok [dupTaskA, dupTaskB] ∧
    (([dupTaskA, dupTaskB] : List QueuedIscTask).filter
      (fun t => t.uid = "dup")).length = 2 := ⟨rfl, rfl, rfl⟩

/-- C3 amended: append raises ValueError exactly on arguments that are not
QueuedIscTask values, leaving the queue unchanged, and appends every task —
including one whose uid is already queued — to the end of the queue. -/
theorem append_amended :
    (∀ q descr, IscTaskQueue.append q (.other descr) =
      .error (.valueError "item must be QueuedIscTask type")) ∧
    (∀ q t, IscTaskQueue.append q (.task t) = .ok (q ++ [t])) ∧
    (∀ q t, IscTaskQueue.is_queued q t.uid = true →
      IscTaskQueue.append q (.task t) = .ok (q ++ [t])) :=
  ⟨fun _ _ => rfl, fun _ _ => rfl, fun _ _ _ => rfl⟩

/-- Witness for C3 amended at a queue already holding the uid dup. -/
theorem append_amended_witness :
    IscTaskQueue.is_queued [dupTaskA] dupTaskB.uid = true ∧
    IscTaskQueue.append [dupTaskA] (.task dupTaskB) = .ok ([dupTaskA] ++ [dupTaskB]) :=
  ⟨rfl, append_amended.2.2 [dupTaskA] dupTaskB rfl⟩

/-- JSON-representable Python value for wire messages: None, booleans,
numbers, strings, lists and string-keyed dictionaries. -/
inductive JVal where
  | null
  | bool (b : Bool)
  | int (n : Int)
  | str (s : String)
  | arr (xs : List JVal)
  | obj (kvs : List (String × JVal))
  deriving Repr

mutual

/-- Embedding of `json_compatible(obj, camel_keys, skip_caps)`
(src/fieldedge_utilities/class_properties.py lines 353-407, the version
isc.py imports) on JSON-representable values: with `camel_keys` set,
dictionary keys that are not ALL-CAPS-with-skip_caps are converted through
`snake_to_camel` (which raises ValueError on an empty key) and values are
converted recursively, lists are converted element-wise, and every other
value passes through; the `json.dumps` fallback branch never fires because
every modelled value is serializable. Without `camel_keys` the value is
returned unchanged. -/
def json_compatible (obj : JVal) (camel_keys skip_caps : Bool) :
    Except PyErr JVal :=
  if camel_keys then
    match obj with
    | .obj kvs =>
      match jsonCompatKVs kvs camel_keys skip_caps [] with
      | .error e => .error e
      | .ok converted => .ok (.obj converted)
    | .arr xs =>
      match jsonCompatList xs camel_keys skip_caps with
      | .error e => .error e
      | .ok ys => .ok (.arr ys)
    | v => .ok v
  else .ok obj

/-- Element-wise conversion of a list value. -/
def jsonCompatList (xs : List JVal) (camel_keys skip_caps : Bool) :
    Except PyErr (List JVal) :=
  match xs with
  | [] => .ok []
  | x :: rest =>
    match json_compatible x camel_keys skip_caps with
    | .error e => .error e
    | .ok y =>
      match jsonCompatList rest camel_keys skip_caps with
      | .error e => .error e
      | .ok ys => .ok (y :: ys)

/-- Key-by-key conversion of a dictionary value, accumulating into the
fresh result dictionary exactly as the source assigns `res[camel_key]`. -/
def jsonCompatKVs (kvs : List (String × JVal)) (camel_keys skip_caps : Bool)
    (res : List (String × JVal)) : Except PyErr (List (String × JVal)) :=
  match kvs with
  | [] => .ok res
  | (k, v) :: rest =>
    match (if pyIsUpper k.data && skip_caps then .ok k
           else snake_to_camel k false : Except PyErr String) with
    | .error e => .error e
    | .ok camel_key =>
      match json_compatible v camel_keys skip_caps with
      | .error e => .error e
      | .ok v2 => jsonCompatKVs rest camel_keys skip_caps (dictInsert res camel_key v2)

end

example : json_compatible (.obj [("power_mode", .int 1)]) true true =
    .ok (.obj [("powerMode", .int 1)]) := rfl
example : json_compatible (.obj [("CONSTANT_X", .int 1), ("sub_prop", .str "t")]) true true =
    .ok (.obj [("CONSTANT_X", .int 1), ("subProp", .str "t")]) := rfl

/-- One call to the MQTT client's publish: topic, message object and QoS. -/
structure PublishCall where
  topic : String
  message : JVal
  qos : Nat
  deriving Repr

/-- Outcome of a `notify` call: the publish handed to the transport (none
when the client is not connected, in which case notify only logs an error
and returns) and the wire-safe `json_message` the method computed and
logged. -/
structure NotifyResult where
  published : Option PublishCall
  logged_json : JVal
  deriving Repr

/-- Embedding of `FieldedgeMicroservice.notify(message, topic, subtopic,
qos)` (src/fieldedge_utilities/isc.py lines 266-299): validates that the
message is a dictionary and the topic and subtopic are nonempty strings,
resolves the topic (falsy topic falls back to the default publish topic,
a subtopic is appended after a slash unless it already starts with one),
computes `json_message = json_compatible(message)` and injects a
millisecond timestamp `ts` into `json_message` when absent — and then
passes the original `message`, not `json_message`, to the client publish. -/
def FieldedgeMicroservice.notify (default_publish_topic : String)
    (connected : Bool) (now_ms : Int) (message : JVal)
    (topic : Option String) (subtopic : Option String) (qos : Nat) :
    Except PyErr NotifyResult :=
  match message with
  | .obj _ =>
    let t0 := match topic with
              | none => default_publish_topic
              | some s => if s = "" then default_publish_topic else s
    if t0 = "" then .error (.valueError "Invalid topic must be string")
    else
      match (match subtopic with
             | none => .ok t0
             | some sub =>
               if sub = "" then .error (.valueError "Invalid subtopic must be string")
               else if sub.data.head? = some '/' then .ok (t0 ++ sub)
               else .ok (t0 ++ "/" ++ sub) : Except PyErr String) with
      | .error e => .error e
      | .ok t =>
        match json_compatible message true true with
        | .error e => .error e
        | .ok jm =>
          let jm2 := match jm with
                     | .obj kvs =>
                       if dictHasKey kvs "ts" then JVal.obj kvs
                       else JVal.obj (dictInsert kvs "ts" (.int now_ms))
                     | other => other
          if connected then .ok ⟨some ⟨t, message, qos⟩, jm2⟩
          else .ok ⟨none, jm2⟩
  | _ => .error (.valueError "Invalid message must be a dictionary")

/-- C6: notify publishes the raw input message, not the wire-safe object.
At a connected client with default topic fieldedge/test, the snake_case
message with no ts field is handed to publish byte-identical to the input,
while the computed-and-logged json_message carries the camelCase key and
the injected ts: the transformed, timestamped object never reaches the
transport. -/
theorem notify_publishes_raw_message :
    FieldedgeMicroservice.notify "fieldedge/test" true 1234
        (.obj [("power_mode", .int 1)]) none (some "rollcall") 1 =
      .ok ⟨some ⟨"fieldedge/test/rollcall", .obj [("power_mode", .int 1)], 1⟩,
           .obj [("powerMode", .int 1), ("ts", .int 1234)]⟩ ∧
    dictHasKey [("power_mode", JVal.int 1)] "ts" = false ∧
    dictHasKey [("power_mode", JVal.int 1)] "powerMode" = false := ⟨rfl, rfl, rfl⟩

instance {ε α : Type} [DecidableEq ε] [DecidableEq α] :
    DecidableEq (Except ε α) := fun a b =>
  match a, b with
  | .error e, .error f =>
    if h : e = f then isTrue (by rw [h]) else isFalse (by intro hx; injection hx; exact h (by assumption))
  | .ok x, .ok y =>
    if h : x = y then isTrue (by rw [h]) else isFalse (by intro hx; injection hx; exact h (by assumption))
  | .error _, .ok _ => isFalse (fun hx => Except.noConfusion hx)
  | .ok _, .error _ => isFalse (fun hx => Except.noConfusion hx)

theorem dictInsert_fresh {α : Type} (d : List (String × α)) (k : String) (v : α)
    (h : dictHasKey d k = false) : dictInsert d k v = d ++ [(k, v)] := by
  rw [dictHasKey] at h
  rw [dictInsert, h]
  simp

theorem dictHasKey_append_single {α : Type} (d : List (String × α))
    (k k2 : String) (v : α) :
    dictHasKey (d ++ [(k, v)]) k2 = (dictHasKey d k2 || decide (k = k2)) := by
  simp [dictHasKey, List.any_append]

/-- State of a FieldedgeMicroservice entity as `rollcall_respond` reads it:
the routing tag, the isc_tags flag, the list of currently visible
properties (the `properties` reflection with the hide list applied), the
current value of each property, and the registered rollcall properties. -/
structure EntityState where
  tag : String
  isc_tags : Bool
  props : List String
  vals : String → JVal
  rollcall_properties : List String

/-- Response-building loop of `rollcall_respond`: for each registered
rollcall property that is currently among the visible properties, assigns
the property's value under its tagged wire name; registered names not
among the visible properties are skipped silently. Errors from
`tag_class_property` propagate. -/
def rollcallLoop (st : EntityState) (tag : Option String) :
    List String → List (String × JVal) → Except PyErr (List (String × JVal))
  | [], response => .ok response
  | p :: rest, response =>
    if p ∈ st.props then
      match tag_class_property p tag true with
      | .error e => .error e
      | .ok tagged => rollcallLoop st tag rest (dictInsert response tagged (st.vals p))
    else rollcallLoop st tag rest response

/-- Embedding of `FieldedgeMicroservice.rollcall_respond(request)`
(src/fieldedge_utilities/isc.py lines 246-264): starts the response as
`{'uid': request.get('uid', None)}` (the missing-uid warning is only a
log), selects the tag when isc_tags is set, and adds each registered,
currently visible rollcall property under its tagged name. The final
`notify` publish is outside this model; the theorem speaks about the
response object handed to it. -/
def FieldedgeMicroservice.rollcall_respond (st : EntityState)
    (request : List (String × JVal)) : Except PyErr (List (String × JVal)) :=
  rollcallLoop st (if st.isc_tags then some st.tag else none)
    st.rollcall_properties [("uid", (dictLookup request "uid").getD .null)]

theorem rollcallLoop_spec (st : EntityState) (tag : Option String)
    (wire : String → String) :
    ∀ (ps : List String) (response : List (String × JVal)),
    (∀ p ∈ ps.filter (fun p => p ∈ st.props),
      tag_class_property p tag true = .ok (wire p)) →
    ((ps.filter (fun p => p ∈ st.props)).map wire).Nodup →
    (∀ p ∈ ps.filter (fun p => p ∈ st.props),
      dictHasKey response (wire p) = false) →
    rollcallLoop st tag ps response =
      .ok (response ++ (ps.filter (fun p => p ∈ st.props)).map
        (fun p => (wire p, st.vals p))) := by
  intro ps
  induction ps with
  | nil => intro response _ _ _; simp [rollcallLoop]
  | cons p rest ih =>
    intro response hw hnodup hfresh
    by_cases hp : p ∈ st.props
    · have hfilter : (p :: rest).filter (fun q => decide (q ∈ st.props)) =
          p :: rest.filter (fun q => decide (q ∈ st.props)) := by
        rw [List.filter_cons_of_pos (by simpa using hp)]
      rw [hfilter] at hw hnodup hfresh
      have hwp := hw p (List.mem_cons_self p _)
      rw [rollcallLoop, if_pos hp]
      simp only [hwp]
      rw [dictInsert_fresh response (wire p) (st.vals p)
            (hfresh p (List.mem_cons_self p _))]
      rw [List.map_cons] at hnodup
      have hnodup2 := (List.nodup_cons.mp hnodup).2
      have hne := (List.nodup_cons.mp hnodup).1
      rw [ih (response ++ [(wire p, st.vals p)])
            (fun q hq => hw q (List.mem_cons_of_mem p hq)) hnodup2 ?fresh2]
      · rw [hfilter, List.map_cons]
        simp
      case fresh2 =>
        intro q hq
        rw [dictHasKey_append_single]
        rw [hfresh q (List.mem_cons_of_mem p hq)]
        simp only [Bool.false_or, decide_eq_false_iff_not]
        intro heq
        exact hne (heq ▸ List.mem_map_of_mem wire hq)
    · have hfilter : (p :: rest).filter (fun q => decide (q ∈ st.props)) =
          rest.filter (fun q => decide (q ∈ st.props)) := by
        rw [List.filter_cons_of_neg (by simpa using hp)]
      rw [hfilter] at hw hnodup hfresh
      rw [rollcallLoop, if_neg hp]
      rw [ih response hw hnodup hfresh, hfilter]

/-- C10: every rollcall response carries the key uid — null when the
inbound request has no uid — and its property entries are exactly the
registered rollcall properties currently among the entity's visible
properties, each under its tagged wire name with its current value;
registered names that are hidden or no longer exist are silently omitted.
Hypotheses: each visible registered name tags to the wire name given by
the function wire, those wire names are pairwise distinct, and none of
them is the string uid. -/
theorem rollcall_respond_spec (st : EntityState) (request : List (String × JVal))
    (wire : String → String)
    (hw : ∀ p ∈ st.rollcall_properties.filter (fun p => p ∈ st.props),
      tag_class_property p (if st.isc_tags then some st.tag else none) true =
        .ok (wire p))
    (hnodup : ((st.rollcall_properties.filter (fun p => p ∈ st.props)).map wire).Nodup)
    (huid : ∀ p ∈ st.rollcall_properties.filter (fun p => p ∈ st.props),
      ¬(wire p = "uid")) :
    FieldedgeMicroservice.rollcall_respond st request =
      .ok (("uid", (dictLookup request "uid").getD .null) ::
        (st.rollcall_properties.filter (fun p => p ∈ st.props)).map
          (fun p => (wire p, st.vals p))) := by
  rw [FieldedgeMicroservice.rollcall_respond]
  rw [rollcallLoop_spec st _ wire st.rollcall_properties _ hw hnodup ?fresh]
  · simp
  case fresh =>
    intro p hp
    rw [show dictHasKey [("uid", (dictLookup request "uid").getD JVal.null)] (wire p) =
          decide ("uid" = wire p) from by simp [dictHasKey]]
    simp only [decide_eq_false_iff_not]
    intro heq
    exact huid p hp heq.symm

/-- Concrete entity for the C10 witness, mirroring the shape of the
TestService in the repository tests: visible properties sub_prop and tag,
rollcall list registering sub_prop plus a ghost name that is no longer a
visible property. -/
def c10Entity : EntityState :=
  { tag := "test", isc_tags := false,
    props := ["sub_prop", "tag"],
    vals := fun p => if p = "sub_prop" then .str "test" else .null,
    rollcall_properties := ["sub_prop", "ghost"] }

/-- Witness for C10: the response to a request with uid requestor-uuid is
exactly the uid entry followed by the subProp entry; the registered ghost
property is silently omitted because it is not a visible property. -/
theorem rollcall_respond_spec_witness :
    FieldedgeMicroservice.rollcall_respond c10Entity
        [("uid", .str "requestor-uuid")] =
      .ok (("uid", (dictLookup [("uid", JVal.str "requestor-uuid")] "uid").getD .null) ::
        (c10Entity.rollcall_properties.filter
          (fun p => p ∈ c10Entity.props)).map
            (fun p => ((fun q => if q = "sub_prop" then "subProp" else q) p,
              c10Entity.vals p))) := by
  apply rollcall_respond_spec c10Entity [("uid", .str "requestor-uuid")]
    (fun q => if q = "sub_prop" then "subProp" else q)
  · intro p hp
    have hps : p = "sub_prop" := by
      rw [show c10Entity.rollcall_properties.filter
            (fun p => p ∈ c10Entity.props) = ["sub_prop"] from rfl] at hp
      simpa using hp
    subst hps
    rfl
  · rw [show c10Entity.rollcall_properties.filter
        (fun p => p ∈ c10Entity.props) = ["sub_prop"] from rfl]
    simp
  · intro p hp
    have hps : p = "sub_prop" := by
      rw [show c10Entity.rollcall_properties.filter
            (fun p => p ∈ c10Entity.props) = ["sub_prop"] from rfl] at hp
      simpa using hp
    subst hps
    decide

theorem dictLookup_cons_self {α : Type} (k : String) (v : α)
    (rest : List (String × α)) : dictLookup ((k, v) :: rest) k = some v := by
  simp [dictLookup]

theorem dictLookup_cons_ne {α : Type} (kv : String × α) (rest : List (String × α))
    (k2 : String) (h : ¬(kv.1 = k2)) :
    dictLookup (kv :: rest) k2 = dictLookup rest k2 := by
  rw [dictLookup, dictLookup, List.find?_cons_of_neg _ (by simpa using h)]

theorem dictLookup_dictInsert_self {α : Type} (d : List (String × α))
    (k : String) (v : α) : dictLookup (dictInsert d k v) k = some v := by
  rw [dictInsert]
  by_cases hany : d.any (fun kv => kv.1 = k) = true
  · rw [if_pos hany]
    induction d with
    | nil => simp at hany
    | cons kv rest ih =>
      rw [List.map_cons]
      by_cases hk : kv.1 = k
      · rw [if_pos hk, dictLookup_cons_self]
      · rw [if_neg hk, dictLookup_cons_ne kv _ k hk]
        rw [List.any_cons] at hany
        have h2 : rest.any (fun x => x.1 = k) = true := by
          rcases Bool.or_eq_true_iff.mp hany with hx | hx
          · exact absurd (of_decide_eq_true hx) hk
          · exact hx
        exact ih h2
  · rw [if_neg hany]
    rw [Bool.not_eq_true] at hany
    induction d with
    | nil => simp [dictLookup]
    | cons kv rest ih =>
      rw [List.any_cons, Bool.or_eq_false_iff] at hany
      have hk : ¬(kv.1 = k) := by simpa using hany.1
      rw [List.cons_append, dictLookup_cons_ne kv _ k hk]
      exact ih hany.2

theorem dictLookup_dictInsert_ne {α : Type} (d : List (String × α))
    (k : String) (v : α) (k2 : String) (h : ¬(k2 = k)) :
    dictLookup (dictInsert d k v) k2 = dictLookup d k2 := by
  rw [dictInsert]
  by_cases hany : d.any (fun kv => kv.1 = k) = true
  · rw [if_pos hany]
    clear hany
    induction d with
    | nil => rfl
    | cons kv rest ih =>
      rw [List.map_cons]
      by_cases hk : kv.1 = k
      · rw [if_pos hk]
        rw [dictLookup_cons_ne (k, v) _ k2 (by simpa using fun he => h he.symm)]
        rw [dictLookup_cons_ne kv rest k2 (by
          intro he
          exact h (by rw [← he, hk]))]
        exact ih
      · rw [if_neg hk]
        by_cases hk2 : kv.1 = k2
        · obtain ⟨a, b⟩ := kv
          simp only at hk2
          subst hk2
          rw [dictLookup_cons_self, dictLookup_cons_self]
        · rw [dictLookup_cons_ne kv _ k2 hk2, dictLookup_cons_ne kv rest k2 hk2]
          exact ih
  · rw [if_neg hany]
    induction d with
    | nil =>
      rw [List.nil_append, dictLookup_cons_ne (k, v) [] k2
            (by simpa using fun he => h he.symm)]
    | cons kv rest ih =>
      rw [Bool.not_eq_true, List.any_cons, Bool.or_eq_false_iff] at hany
      by_cases hk2 : kv.1 = k2
      · obtain ⟨a, b⟩ := kv
        simp only at hk2
        subst hk2
        rw [List.cons_append, dictLookup_cons_self, dictLookup_cons_self]
      · rw [List.cons_append, dictLookup_cons_ne kv _ k2 hk2,
            dictLookup_cons_ne kv rest k2 hk2]
        exact ih (by simp [hany.2])

/-- Python truthiness of a JSON value: None, empty string, zero, False and
empty containers are falsy. -/
def JVal.falsy : JVal → Bool
  | .null => true
  | .str s => s = ""
  | .int n => n = 0
  | .bool b => !b
  | .arr xs => xs.isEmpty
  | .obj kvs => kvs.isEmpty

/-- Modelled from the spec: the `IscTask` of the missing module
src/fieldedge_utilities/microservice/interservice.py, per spec section 3 —
a Task carries uid, task_type, task_meta mapping, callback, lifetime and
queued_time — and per its callers in msproxy.py and test_interservice.py. -/
structure IscTask where
  uid : String
  task_type : Option String
  task_meta : Option (List (String × MetaVal))
  callback : Option Nat
  lifetime : Option Int
  queued_time : Int

/-- Modelled from the spec: `IscTaskQueue.is_queued(task_id)` of the missing
module src/fieldedge_utilities/microservice/interservice.py, per spec
section 4.4 — true exactly when a task with the given id is queued. Task
uids are strings, so a non-string id matches nothing. -/
def MsIscTaskQueue.is_queued (q : List IscTask) (task_id : JVal) : Bool :=
  match task_id with
  | .str s => q.any (fun t => t.uid = s)
  | _ => false

/-- Modelled from the spec: `IscTaskQueue.get(task_id)` of the missing
module src/fieldedge_utilities/microservice/interservice.py, per spec
section 4.4 — atomically removes and returns the task, or None if absent. -/
def MsIscTaskQueue.get : List IscTask → String → Option (IscTask × List IscTask)
  | [], _ => none
  | t :: rest, task_id =>
    if t.uid = task_id then some (t, rest)
    else
      match MsIscTaskQueue.get rest task_id with
      | some (f, q2) => some (f, t :: q2)
      | none => none

theorem is_queued_of_get (q : List IscTask) (s : String) (t : IscTask)
    (q2 : List IscTask) (h : MsIscTaskQueue.get q s = some (t, q2)) :
    MsIscTaskQueue.is_queued q (.str s) = true := by
  induction q generalizing t q2 with
  | nil => cases h
  | cons t0 rest ih =>
    rw [MsIscTaskQueue.get] at h
    by_cases h0 : t0.uid = s
    · simp [MsIscTaskQueue.is_queued, h0]
    · rw [if_neg h0] at h
      match hrec : MsIscTaskQueue.get rest s with
      | some (f, q3) =>
        simp only [MsIscTaskQueue.is_queued, List.any_cons, Bool.or_eq_true]
        right
        have := ih f q3 hrec
        simpa [MsIscTaskQueue.is_queued] using this
      | none => rw [hrec] at h; cases h

/-- State of a MicroserviceProxy as its response handler touches it: the
blocking task queue, the property snapshot, the property cache and the
initialization flags. -/
structure ProxyState where
  isc_queue : List IscTask
  proxy_properties : Option (List (String × JVal))
  property_cache : PropertyCacheState
  initialized : Bool
  initializing : Bool

/-- Result of one `task_handle` call: the boolean return, the state after
the call, and the recorded callback invocations (label of the callback,
the response message and the metadata dictionary passed to it). -/
structure TaskHandleResult where
  handled : Bool
  state : ProxyState
  invocations : List (Nat × (List (String × JVal)) × (List (String × MetaVal)))

/-- Embedding of `MicroserviceProxy.task_handle(response)`
(src/fieldedge_utilities/microservice/msproxy.py lines 141-158): reads
`response.get('uid', None)`; a falsy or not-queued uid is ignored with
return False and no state change; otherwise the matching task is popped
from the queue, its metadata (normalized to a dict) is enriched with
task_id and task_type, its callback — when callable — is invoked with the
response and the metadata, and the call returns True. -/
def MicroserviceProxy.task_handle (st : ProxyState)
    (response : List (String × JVal)) : TaskHandleResult :=
  let task_id := (dictLookup response "uid").getD .null
  if task_id.falsy then ⟨false, st, []⟩
  else if ¬(MsIscTaskQueue.is_queued st.isc_queue task_id = true) then ⟨false, st, []⟩
  else
    match task_id with
    | .str s =>
      match MsIscTaskQueue.get st.isc_queue s with
      | none => ⟨false, st, []⟩
      | some (task, q2) =>
        let meta0 := task.task_meta.getD []
        let meta1 := dictInsert meta0 "task_id" (.str s)
        let meta2 := dictInsert meta1 "task_type"
          (match task.task_type with
           | some ty => MetaVal.str ty
           | none => MetaVal.null)
        ⟨true, { st with isc_queue := q2 },
          match task.callback with
          | some cb => [(cb, response, meta2)]
          | none => []⟩
    | _ => ⟨false, st, []⟩

/-- C7: a response whose uid is missing, falsy, or not queued makes
task_handle return False with the proxy state — queue, property snapshot,
cache, flags — completely unchanged and no callback invoked; a response
whose uid matches a queued task pops exactly that task, enriches its
metadata with task_id (the uid) and task_type, invokes its callback with
the response and that metadata, and returns True, leaving every state
field other than the queue unchanged. -/
theorem task_handle_spec (st : ProxyState) (response : List (String × JVal)) :
    ((dictLookup response "uid").getD .null = JVal.null →
      MicroserviceProxy.task_handle st response = ⟨false, st, []⟩) ∧
    (∀ v, dictLookup response "uid" = some v → v.falsy = true →
      MicroserviceProxy.task_handle st response = ⟨false, st, []⟩) ∧
    (∀ v, dictLookup response "uid" = some v →
      MsIscTaskQueue.is_queued st.isc_queue v = false →
      MicroserviceProxy.task_handle st response = ⟨false, st, []⟩) ∧
    (∀ s task q2 cb, dictLookup response "uid" = some (.str s) → ¬(s = "") →
      MsIscTaskQueue.get st.isc_queue s = some (task, q2) →
      task.callback = some cb →
      ∃ m, MicroserviceProxy.task_handle st response =
          ⟨true, { st with isc_queue := q2 }, [(cb, response, m)]⟩ ∧
        dictLookup m "task_id" = some (.str s) ∧
        dictLookup m "task_type" = some (match task.task_type with
          | some ty => MetaVal.str ty
          | none => MetaVal.null)) := by
  refine ⟨?_, ?_, ?_, ?_⟩
  · intro h
    simp only [MicroserviceProxy.task_handle, h]
    rw [if_pos (by rfl)]
  · intro v hv hfalsy
    simp only [MicroserviceProxy.task_handle, hv, Option.getD_some]
    rw [if_pos hfalsy]
  · intro v hv hqueued
    simp only [MicroserviceProxy.task_handle, hv, Option.getD_some]
    by_cases hfalsy : v.falsy = true
    · rw [if_pos hfalsy]
    · rw [if_neg hfalsy, if_pos (by simp [hqueued])]
  · intro s task q2 cb huid hsne hget hcb
    refine ⟨dictInsert (dictInsert (task.task_meta.getD []) "task_id" (.str s))
      "task_type" (match task.task_type with
        | some ty => MetaVal.str ty
        | none => MetaVal.null), ?_, ?_, ?_⟩
    · simp only [MicroserviceProxy.task_handle, huid, Option.getD_some]
      rw [if_neg (by simpa [JVal.falsy] using hsne)]
      rw [if_neg (by simp [is_queued_of_get st.isc_queue s task q2 hget])]
      simp only [hget, hcb]
    · rw [dictLookup_dictInsert_ne _ _ _ _ (by decide),
          dictLookup_dictInsert_self]
    · rw [dictLookup_dictInsert_self]

/-- Queued task used by the C7 witness. -/
def c7Task : IscTask :=
  { uid := "u1", task_type := some "property_get",
    task_meta := some [("properties", .str "all")],
    callback := some 7, lifetime := some 10, queued_time := 0 }

/-- Proxy state used by the C7 witness. -/
def c7State : ProxyState :=
  { isc_queue := [c7Task],
    proxy_properties := some [("powerMode", .int 1)],
    property_cache := [("all", ((0 : Int), some 5))],
    initialized := true, initializing := false }

/-- Witness for C7: a stale response with uid u2 is ignored and leaves the
state unchanged, and the matching response with uid u1 pops the task and
fires its callback with enriched metadata. -/
theorem task_handle_spec_witness :
    MicroserviceProxy.task_handle c7State [("uid", .str "u2")] =
      ⟨false, c7State, []⟩ ∧
    (∃ m, MicroserviceProxy.task_handle c7State [("uid", .str "u1")] =
        ⟨true, { c7State with isc_queue := [] }, [(7, [("uid", .str "u1")], m)]⟩ ∧
      dictLookup m "task_id" = some (.str "u1") ∧
      dictLookup m "task_type" = some (MetaVal.str "property_get")) := by
  constructor
  · exact (task_handle_spec c7State [("uid", .str "u2")]).2.2.1
      (.str "u2") rfl (by decide)
  · have h := (task_handle_spec c7State [("uid", .str "u1")]).2.2.2
      "u1" c7Task [] 7 rfl (by decide) rfl rfl
    exact h

/-- Caller-side instructions of one `query_properties` call, in the order
the source executes them (src/fieldedge_utilities/microservice/msproxy.py
lines 195-232): the publish of the request message at line 231 strictly
precedes the gate-guarded `task_add(prop_task)` at line 232. -/
inductive ProxyInstr where
  | publishReq (n : Nat)
  | taskAddGate (n : Nat)
  deriving Repr, DecidableEq

/-- Observable events of an execution: a request publish, a task appended
to the queue, and a task removed from the queue (completion or expiry,
both of which set the gate). -/
inductive ProxyEv where
  | published (n : Nat)
  | taskAdded (n : Nat)
  | taskRemoved (n : Nat)
  deriving Repr, DecidableEq

/-- Configuration of the two-call scenario: the caller's remaining
instructions, the blocking gate (true = set/free), the task queue (task
labels) and the event trace. -/
structure ProxyConfig where
  prog : List ProxyInstr
  gate : Bool
  queue : List Nat
  trace : List ProxyEv
  deriving Repr, DecidableEq

/-- Modelled from the spec: the blocking-gate semantics of the missing
module src/fieldedge_utilities/microservice/interservice.py, per spec
sections 3-5 — in blocking mode append waits until the gate is set and
clears it; completion or expiry of a task sets the gate — with the wait
plus append of `task_add` taken as one atomic step per the spec's
mutual-exclusion requirement. The publish step carries no guard because
`query_properties` publishes before calling `task_add` (msproxy.py lines
231-232); the environment step removes a queued task and sets the gate,
standing for `task_complete` or `remove_expired`. -/
inductive ProxyStep : ProxyConfig → ProxyConfig → Prop where
  | publish (n : Nat) (rest : List ProxyInstr) (g : Bool) (q : List Nat)
      (tr : List ProxyEv) :
      ProxyStep ⟨.publishReq n :: rest, g, q, tr⟩
        ⟨rest, g, q, tr ++ [.published n]⟩
  | taskAdd (n : Nat) (rest : List ProxyInstr) (q : List Nat)
      (tr : List ProxyEv) :
      ProxyStep ⟨.taskAddGate n :: rest, true, q, tr⟩
        ⟨rest, false, q ++ [n], tr ++ [.taskAdded n]⟩
  | complete (n : Nat) (p : List ProxyInstr) (g : Bool) (q : List Nat)
      (tr : List ProxyEv) (hmem : n ∈ q) :
      ProxyStep ⟨p, g, q, tr⟩ ⟨p, true, q.erase n, tr ++ [.taskRemoved n]⟩

/-- Initial configuration of two successive query_properties calls on a
blocking-mode proxy: request 1 then request 2, gate set, queue empty. -/
def queryTwiceInit : ProxyConfig :=
  ⟨[.publishReq 1, .taskAddGate 1, .publishReq 2, .taskAddGate 2], true, [], []⟩

/-- C4 counterexample: an execution reachable from the two-call initial
configuration publishes request 2 while task 1 is still queued and no
completion or expiry of task 1 has occurred, because query_properties
publishes before task_add waits on the gate — refuting the claim that the
second publish never precedes the first task's removal. -/
theorem second_publish_before_first_removal :
    Relation.ReflTransGen ProxyStep queryTwiceInit
      ⟨[.taskAddGate 2], false, [1],
       [.published 1, .taskAdded 1, .published 2]⟩ ∧
    ProxyEv.published 2 ∈
      [ProxyEv.published 1, .taskAdded 1, .published 2] ∧
    (1 : Nat) ∈ [1] ∧
    ¬(ProxyEv.taskRemoved 1 ∈
      [ProxyEv.published 1, .taskAdded 1, .published 2]) := by
  refine ⟨?_, by decide, by decide, by decide⟩
  apply Relation.ReflTransGen.head (ProxyStep.publish 1 _ _ _ _)
  apply Relation.ReflTransGen.head (ProxyStep.taskAdd 1 _ _ _)
  apply Relation.ReflTransGen.head (ProxyStep.publish 2 _ _ _ _)
  exact Relation.ReflTransGen.refl

/-- Inductive invariant of the two-call scenario: at most one task is ever
queued; a set gate means an empty queue; task 2 is appended only after
task 1 was removed; the program counter is a suffix of the two-call
program; once the first task_add has executed and the gate is set again,
task 1 has been removed; queued labels are 1 or 2; and task 2 queued means
its append is on the trace. -/
def ProxyInv (c : ProxyConfig) : Prop :=
  c.queue.length ≤ 1 ∧
  (c.gate = true → c.queue = []) ∧
  (ProxyEv.taskAdded 2 ∈ c.trace → ProxyEv.taskRemoved 1 ∈ c.trace) ∧
  (c.prog = [.publishReq 1, .taskAddGate 1, .publishReq 2, .taskAddGate 2] ∨
   c.prog = [.taskAddGate 1, .publishReq 2, .taskAddGate 2] ∨
   c.prog = [.publishReq 2, .taskAddGate 2] ∨
   c.prog = [.taskAddGate 2] ∨
   c.prog = []) ∧
  (¬(ProxyInstr.taskAddGate 1 ∈ c.prog) → c.gate = true →
    ProxyEv.taskRemoved 1 ∈ c.trace) ∧
  (∀ n ∈ c.queue, n = 1 ∨ n = 2) ∧
  ((2 : Nat) ∈ c.queue → ProxyEv.taskAdded 2 ∈ c.trace)

theorem proxyInv_init : ProxyInv queryTwiceInit := by
  rw [ProxyInv, queryTwiceInit]
  refine ⟨?_, ?_, ?_, ?_, ?_, ?_, ?_⟩
  · decide
  · intro h
    rfl
  · intro h
    cases h
  · exact Or.inl rfl
  · intro habs h2
    exact absurd (by decide) habs
  · intro n hn
    cases hn
  · intro h
    cases h

theorem proxyInv_step (c c2 : ProxyConfig) (hstep : ProxyStep c c2)
    (hinv : ProxyInv c) : ProxyInv c2 := by
  obtain ⟨hA, hB, hC, hD, hG, hE, hH⟩ := hinv
  cases hstep with
  | publish n rest g q tr =>
    refine ⟨hA, hB, ?_, ?_, ?_, hE, ?_⟩
    · intro h
      rcases List.mem_append.mp h with h | h
      · exact List.mem_append_left _ (hC h)
      · simp at h
    · rcases hD with h | h | h | h | h
      · injection h with h1 h2
        right; left
        exact h2
      · injection h with h1 h2
        simp at h1
      · injection h with h1 h2
        right; right; right; left
        exact h2
      · injection h with h1 h2
        simp at h1
      · cases h
    · intro habs hgate
      apply List.mem_append_left
      apply hG ?_ hgate
      intro hmem
      rcases List.mem_cons.mp hmem with hmem | hmem
      · simp at hmem
      · exact habs hmem
    · intro h2q
      exact List.mem_append_left _ (hH h2q)
  | taskAdd n rest q tr =>
    have hq : q = [] := hB rfl
    subst hq
    have hcase : (n = 1 ∧ rest = [.publishReq 2, .taskAddGate 2]) ∨
        (n = 2 ∧ rest = []) := by
      rcases hD with h | h | h | h | h
      · injection h with h1 h2
        simp at h1
      · injection h with h1 h2
        injection h1 with h1
        exact Or.inl ⟨h1, h2⟩
      · injection h with h1 h2
        simp at h1
      · injection h with h1 h2
        injection h1 with h1
        exact Or.inr ⟨h1, h2⟩
      · cases h
    rcases hcase with ⟨hn, hrest⟩ | ⟨hn, hrest⟩
    · subst hn
      subst hrest
      refine ⟨by simp, ?_, ?_, ?_, ?_, ?_, ?_⟩
      · intro h
        cases h
      · intro h
        rcases List.mem_append.mp h with h | h
        · exact List.mem_append_left _ (hC h)
        · simp at h
      · right; right; left
        rfl
      · intro _ hg
        cases hg
      · intro m hm
        simp at hm
        exact Or.inl hm
      · intro h2
        simp at h2
    · subst hn
      subst hrest
      have hrem1 : ProxyEv.taskRemoved 1 ∈ tr := hG (by simp) rfl
      refine ⟨by simp, ?_, ?_, ?_, ?_, ?_, ?_⟩
      · intro h
        cases h
      · intro _
        exact List.mem_append_left _ hrem1
      · right; right; right; right
        rfl
      · intro _ hg
        cases hg
      · intro m hm
        simp at hm
        exact Or.inr hm
      · intro _
        apply List.mem_append_right
        simp
  | complete n p g q tr hmem =>
    have hlen1 : q.length = 1 := by
      have hpos : 0 < q.length := List.length_pos_of_mem hmem
      have hle : q.length ≤ 1 := hA
      omega
    obtain ⟨a, ha⟩ := List.length_eq_one.mp hlen1
    subst ha
    have hna : n = a := List.mem_singleton.mp hmem
    subst hna
    refine ⟨by simp, ?_, ?_, hD, ?_, ?_, ?_⟩
    · intro _
      simp
    · intro h
      rcases List.mem_append.mp h with h | h
      · exact List.mem_append_left _ (hC h)
      · simp at h
    · intro habs hg
      rcases hE n (List.mem_singleton.mpr rfl) with hn | hn
      · subst hn
        apply List.mem_append_right
        simp
      · subst hn
        have hadded := hH (List.mem_singleton.mpr rfl)
        exact List.mem_append_left _ (hC hadded)
    · intro m hm
      exact hE m (List.mem_of_mem_erase hm)
    · intro h2
      exact List.mem_append_left _ (hH (List.mem_of_mem_erase h2))

/-- C4 amended: the blocking gate serializes task queueing, not
publishing: in every execution of two successive query_properties calls on
a blocking-mode proxy at most one task is ever outstanding in the queue,
and the second call's task is appended only after the first task has been
removed (completed or expired); the second call's request publish, however,
precedes its gate wait and can occur before the first task's removal. -/
theorem blocking_gate_serializes_queueing (c : ProxyConfig)
    (h : Relation.ReflTransGen ProxyStep queryTwiceInit c) :
    c.queue.length ≤ 1 ∧
    (ProxyEv.taskAdded 2 ∈ c.trace → ProxyEv.taskRemoved 1 ∈ c.trace) := by
  have hinv : ProxyInv c := by
    induction h with
    | refl => exact proxyInv_init
    | tail hsteps hstep ih => exact proxyInv_step _ _ hstep ih
  exact ⟨hinv.1, hinv.2.2.1⟩

/-- Witness for C4 amended at the reachable configuration in which both
requests have been published, task 1 has completed and task 2 is queued. -/
theorem blocking_gate_serializes_queueing_witness :
    Relation.ReflTransGen ProxyStep queryTwiceInit
      ⟨[], false, [2],
        [.published 1, .taskAdded 1, .published 2, .taskRemoved 1,
         .taskAdded 2]⟩ ∧
    ([2] : List Nat).length ≤ 1 ∧
    (ProxyEv.taskAdded 2 ∈
        [ProxyEv.published 1, .taskAdded 1, .published 2, .taskRemoved 1,
         .taskAdded 2] →
      ProxyEv.taskRemoved 1 ∈
        [ProxyEv.published 1, .taskAdded 1, .published 2, .taskRemoved 1,
         .taskAdded 2]) := by
  have hreach : Relation.ReflTransGen ProxyStep queryTwiceInit
      ⟨[], false, [2],
        [.published 1, .taskAdded 1, .published 2, .taskRemoved 1,
         .taskAdded 2]⟩ := by
    apply Relation.ReflTransGen.head (ProxyStep.publish 1 _ _ _ _)
    apply Relation.ReflTransGen.head (ProxyStep.taskAdd 1 _ _ _)
    apply Relation.ReflTransGen.head (ProxyStep.publish 2 _ _ _ _)
    apply Relation.ReflTransGen.head (ProxyStep.complete 1 _ _ _ _ (by decide))
    apply Relation.ReflTransGen.head (ProxyStep.taskAdd 2 _ _ _)
    exact Relation.ReflTransGen.refl
  exact ⟨hreach, (blocking_gate_serializes_queueing _ hreach).1,
    (blocking_gate_serializes_queueing _ hreach).2⟩
